import Mathlib

/- Formal model of the tubular linear actuator commutation code.

The repository contains three CircuitPython variants of the same driver:
  - code.py                : position is an angle in radians, period 2*pi
  - sine/code.py           : position is in degrees, period 360
  - step_table/code.py     : position is a fractional index into a 24-row
                             waveform table, period NUM_STEPS = 24

Python floats are embedded as exact rationals where the computation is pure
rational arithmetic (the step table, degree positions, PWM duty arithmetic),
and as real numbers where the code calls trigonometric functions (the radian
variant) or where the period is 2*pi. -/

/-- Embedding of the Python builtin int() on rationals: truncation toward
zero (floor for nonnegative arguments, ceiling for negative ones). -/
def pyInt (q : ℚ) : ℤ := if 0 ≤ q then ⌊q⌋ else ⌈q⌉

/-- Embedding of the Python builtin int() on reals. -/
noncomputable def pyIntR (x : ℝ) : ℤ := if 0 ≤ x then ⌊x⌋ else ⌈x⌉

namespace Table

/-- PWM_MAX = 65535 (16-bit PWM), step_table/code.py line 20. -/
def PWM_MAX : ℤ := 65535

/-- DEAD_TIME = 0.000001 seconds, step_table/code.py line 21. -/
def DEAD_TIME : ℚ := 0.000001

/-- DIRECTION_FORWARDS = 1, step_table/code.py line 23. -/
def DIRECTION_FORWARDS : ℤ := 1

/-- The STEPS waveform table, step_table/code.py lines 28-53: 24 triples of
per-phase values in [-100, 100]. -/
def STEPS : List (ℚ × ℚ × ℚ) :=
  [ (25, 0, -75),
    (50, 0, -50),
    (75, 0, -25),
    (100, 0, 0),
    (75, 25, 0),
    (50, 50, 0),
    (25, 75, 0),
    (0, 100, 0),
    (0, 75, 25),
    (0, 50, 50),
    (0, 25, 75),
    (0, 0, 100),
    (-25, 0, 75),
    (-50, 0, 50),
    (-75, 0, 25),
    (-100, 0, 0),
    (-75, -25, 0),
    (-50, -50, 0),
    (-25, -75, 0),
    (0, -100, 0),
    (0, -75, -25),
    (0, -50, -50),
    (0, -25, -75),
    (0, 0, -100) ]

/-- NUM_STEPS = len(STEPS), step_table/code.py line 54. -/
def NUM_STEPS : ℕ := STEPS.length

/-- self.step_increment = .1, step_table/code.py line 61. -/
def step_increment : ℚ := 0.1

/-- normalize_step, step_table/code.py lines 88-94, applied to the float
position: one conditional wrap by NUM_STEPS. -/
def normalize_step (idx : ℚ) : ℚ :=
  if idx ≥ (NUM_STEPS : ℚ) then idx - (NUM_STEPS : ℚ)
  else if idx < 0 then idx + (NUM_STEPS : ℚ)
  else idx

/-- normalize_step, step_table/code.py lines 88-94, as applied to the
integer lookup indices from_idx and to_idx (Python uses the same function
for both; this is its restriction to integers). -/
def normalize_idx (i : ℤ) : ℤ :=
  if i ≥ (NUM_STEPS : ℤ) then i - (NUM_STEPS : ℤ)
  else if i < 0 then i + (NUM_STEPS : ℤ)
  else i

/-- interpolate_value, step_table/code.py lines 96-105. -/
def interpolate_value (from_value to_value percent : ℚ) : ℚ :=
  if from_value = to_value then to_value
  else if percent ≤ 0 then from_value
  else if percent ≥ 1 then to_value
  else percent * (to_value - from_value) + from_value

/-- Row lookup STEPS[i] for an integer index (total, with an out-of-range
default; the in-bounds theorems show the default is never consulted for the
indices the code produces). -/
def tableRow (i : ℤ) : ℚ × ℚ × ℚ := STEPS.getD i.toNat (0, 0, 0)

/-- The position update of step(), step_table/code.py lines 113-119:
increment or decrement current_step by step_increment according to
direction, then normalize_step. -/
def stepPos (pos : ℚ) (direction : ℤ) : ℚ :=
  normalize_step
    (if direction = DIRECTION_FORWARDS then pos + step_increment
     else pos - step_increment)

/-- The phase-value computation of step(), step_table/code.py lines
121-142, as a function of the already-updated current_step: direction-aware
bracketing indices, interpolation progress, index normalization, table
lookup and per-column linear interpolation. -/
def tablePhases (pos : ℚ) (direction : ℤ) : ℚ × ℚ × ℚ :=
  let from_idx : ℤ :=
    if direction = DIRECTION_FORWARDS then ⌊pos⌋ else ⌈pos⌉
  let to_idx : ℤ :=
    if direction = DIRECTION_FORWARDS then ⌈pos⌉ else ⌊pos⌋
  let progress : ℚ :=
    if direction = DIRECTION_FORWARDS then 1 - ((to_idx : ℚ) - pos)
    else 1 - (pos - (to_idx : ℚ))
  let to_n := normalize_idx to_idx
  let from_n := normalize_idx from_idx
  let f := tableRow from_n
  let t := tableRow to_n
  (interpolate_value f.1 t.1 progress,
   interpolate_value f.2.1 t.2.1 progress,
   interpolate_value f.2.2 t.2.2 progress)

/-- apply_phase of step_table/code.py lines 74-86, as the final pair
(high-side duty, low-side duty) it writes: the input value in [-100, 100]
is first scaled by 1/100, then truncated with int() after scaling by
PWM_MAX. -/
def apply_phase (value : ℚ) : ℤ × ℤ :=
  if value ≥ 0 then (pyInt (value / 100 * (PWM_MAX : ℚ)), 0)
  else (0, pyInt (-1 * (value / 100) * (PWM_MAX : ℚ)))

end Table

namespace Angle

/-- PWM_MAX = 65535 (16-bit PWM), code.py line 17. -/
def PWM_MAX : ℤ := 65535

/-- DEAD_TIME = 0.000001 seconds, code.py line 18. -/
def DEAD_TIME : ℚ := 0.000001

/-- PHASE_ANGLE = 2 * pi / 3, code.py line 19. -/
noncomputable def PHASE_ANGLE : ℝ := 2 * Real.pi / 3

/-- self.step_increment = .05 radians, code.py line 25. -/
noncomputable def step_increment : ℝ := 0.05

/-- The wrap applied at the end of step(), code.py lines 58-62: one
conditional wrap keeps the angle in the range 0 to 2*pi. -/
noncomputable def wrapAngle (a : ℝ) : ℝ :=
  if a ≥ 2 * Real.pi then a - 2 * Real.pi
  else if a < 0 then a + 2 * Real.pi
  else a

/-- step(direction), code.py lines 51-62: add or subtract step_increment
according to the sign of direction, then wrap. -/
noncomputable def step (angle : ℝ) (direction : ℤ) : ℝ :=
  wrapAngle (if direction > 0 then angle + step_increment
             else angle - step_increment)

/-- apply_phase, code.py lines 38-49, as the final pair
(high-side duty, low-side duty) written to the two PWM channels of one
phase. Python int() truncates the scaled value. -/
noncomputable def apply_phase (value : ℝ) : ℤ × ℤ :=
  if value ≥ 0 then (pyIntR (value * (PWM_MAX : ℝ)), 0)
  else (0, pyIntR (-value * (PWM_MAX : ℝ)))

/-- The phase-value triple computed in update(), code.py lines 81-84. -/
noncomputable def phaseValues (angle : ℝ) : ℝ × ℝ × ℝ :=
  (Real.cos angle, Real.cos (angle - PHASE_ANGLE),
   Real.cos (angle + PHASE_ANGLE))

/-- The actuator state of code.py: the instance fields of LinearActuator
together with the duty cycles of the six module-level PWM channels (two per
phase), which are the observable outputs the code writes. -/
structure State where
  angle : ℝ
  direction : Bool
  inc : ℝ
  running : Bool
  ah : ℤ
  al : ℤ
  bh : ℤ
  bl : ℤ
  ch : ℤ
  cl : ℤ

/-- output_off, code.py lines 29-36: zero all six duty cycles. -/
def output_off (s : State) : State :=
  { s with ah := 0, al := 0, bh := 0, bl := 0, ch := 0, cl := 0 }

/-- update(), code.py lines 72-89: while stopped, re-assert all outputs
off; while running, compute the three cosine phase values at the current
angle and write each phase's pair of duty cycles via apply_phase. -/
noncomputable def update (s : State) : State :=
  if s.running = false then output_off s
  else
    let pa := apply_phase (Real.cos s.angle)
    let pb := apply_phase (Real.cos (s.angle - PHASE_ANGLE))
    let pc := apply_phase (Real.cos (s.angle + PHASE_ANGLE))
    { s with ah := pa.1, al := pa.2, bh := pb.1, bl := pb.2,
             ch := pc.1, cl := pc.2 }

/-- start(), code.py lines 92-94. -/
def start (s : State) : State := { s with running := true }

/-- stop(), code.py lines 96-99: clear running, then output_off. -/
def stop (s : State) : State := output_off { s with running := false }

/-- All six half-bridge duty cycles are zero. -/
def allOff (s : State) : Prop :=
  s.ah = 0 ∧ s.al = 0 ∧ s.bh = 0 ∧ s.bl = 0 ∧ s.ch = 0 ∧ s.cl = 0

end Angle

namespace Sine

/-- PWM_MAX = 65535 (16-bit PWM), sine/code.py line 20. -/
def PWM_MAX : ℤ := 65535

/-- DEAD_TIME = 0.000001 seconds, sine/code.py line 21. -/
def DEAD_TIME : ℚ := 0.000001

/-- PHASE_OFFSET = 2 * pi / 3, sine/code.py line 22. -/
noncomputable def PHASE_OFFSET : ℝ := 2 * Real.pi / 3

/-- DEGREE_TO_RADIAN_MULTIPLIER = pi / 180, sine/code.py line 23. -/
noncomputable def DEGREE_TO_RADIAN_MULTIPLIER : ℝ := Real.pi / 180

/-- DIRECTION_FORWARDS = 1, sine/code.py line 25. -/
def DIRECTION_FORWARDS : ℤ := 1

/-- self.step_increment = .5 degrees, sine/code.py line 32. -/
noncomputable def step_increment : ℝ := 0.5

/-- The wrap applied at the end of step(), sine/code.py lines 65-69: one
conditional wrap keeps the position in the range 0 to 360 degrees. -/
noncomputable def wrapDegrees (d : ℝ) : ℝ :=
  if d ≥ 360 then d - 360
  else if d < 0 then d + 360
  else d

/-- step(direction), sine/code.py lines 58-69: add or subtract
step_increment according to direction, then wrap. -/
noncomputable def step (degrees : ℝ) (direction : ℤ) : ℝ :=
  wrapDegrees (if direction = DIRECTION_FORWARDS then degrees + step_increment
               else degrees - step_increment)

/-- The phase-value triple computed in update(), sine/code.py lines 87-91:
the degree position is converted to radians, then the three cosines are
taken. -/
noncomputable def phaseValues (degrees : ℝ) : ℝ × ℝ × ℝ :=
  let radians := degrees * DEGREE_TO_RADIAN_MULTIPLIER
  (Real.cos radians, Real.cos (radians - PHASE_OFFSET),
   Real.cos (radians + PHASE_OFFSET))

end Sine

namespace Angle

/-- One observable action of apply_phase on a single phase: a write to the
low-side duty cycle, a write to the high-side duty cycle, or a sleep. -/
inductive PhaseEvent where
  | setLow (d : ℤ)
  | setHigh (d : ℤ)
  | sleep (t : ℚ)
deriving DecidableEq

/-- The event sequence of one apply_phase call, code.py lines 38-49, in
source order: zero one side, sleep DEAD_TIME, then energize the other
side. -/
noncomputable def applyTrace (value : ℝ) : List PhaseEvent :=
  if value ≥ 0 then
    [.setLow 0, .sleep DEAD_TIME, .setHigh (pyIntR (value * (PWM_MAX : ℝ)))]
  else
    [.setHigh 0, .sleep DEAD_TIME, .setLow (pyIntR (-value * (PWM_MAX : ℝ)))]

/-- The event sequence of a sequence of apply_phase calls on one phase. -/
noncomputable def trace : List ℝ → List PhaseEvent
  | [] => []
  | v :: vs => applyTrace v ++ trace vs

/-- Effect of one event on the (high duty, low duty) pair of one phase. -/
def execEvent : ℤ × ℤ → PhaseEvent → ℤ × ℤ
  | (_, l), .setHigh d => (d, l)
  | (h, _), .setLow d => (h, d)
  | s, .sleep _ => s

/-- The state after executing a list of events. -/
def execList (s : ℤ × ℤ) (es : List PhaseEvent) : ℤ × ℤ :=
  es.foldl execEvent s

/-- Every state passed through while executing a list of events, initial
and final states included. -/
def visited (s : ℤ × ℤ) : List PhaseEvent → List (ℤ × ℤ)
  | [] => [s]
  | e :: es => s :: visited (execEvent s e) es

/-- At most one side of the phase carries a nonzero duty command. -/
def okPair (s : ℤ × ℤ) : Prop := s.1 = 0 ∨ s.2 = 0

end Angle

/-- C1 counterexample: the claim quantifies over every real input, but the
normalization wraps at most once. At input 48 with NUM_STEPS = 24 the table
strategy returns 48 - 24 = 24, which is not in [0, 24). -/
theorem normalize_step_one_wrap_counterexample :
    Table.normalize_step 48 = 24 ∧ ¬ Table.normalize_step 48 < (Table.NUM_STEPS : ℚ) := by
  constructor
  · norm_num [Table.normalize_step, Table.NUM_STEPS, Table.STEPS]
  · norm_num [Table.normalize_step, Table.NUM_STEPS, Table.STEPS]

/-- C1 (amended): for inputs within one period of the cyclic range, that is
-P ≤ x < 2P, the position-normalization step of each strategy returns a
value in [0, P) congruent to x modulo P. (P = NUM_STEPS for the table
strategy, 2*pi for the radian strategy, 360 for the degree strategy.) -/
theorem normalize_wraps_within_one_period :
    (∀ x : ℚ, -(Table.NUM_STEPS : ℚ) ≤ x → x < 2 * (Table.NUM_STEPS : ℚ) →
      0 ≤ Table.normalize_step x ∧
      Table.normalize_step x < (Table.NUM_STEPS : ℚ) ∧
      ∃ k : ℤ, x - Table.normalize_step x = k * (Table.NUM_STEPS : ℚ)) ∧
    (∀ a : ℝ, -(2 * Real.pi) ≤ a → a < 2 * (2 * Real.pi) →
      0 ≤ Angle.wrapAngle a ∧ Angle.wrapAngle a < 2 * Real.pi ∧
      ∃ k : ℤ, a - Angle.wrapAngle a = k * (2 * Real.pi)) ∧
    (∀ d : ℝ, -(360 : ℝ) ≤ d → d < 2 * 360 →
      0 ≤ Sine.wrapDegrees d ∧ Sine.wrapDegrees d < 360 ∧
      ∃ k : ℤ, d - Sine.wrapDegrees d = k * 360) := by
  refine ⟨?_, ?_, ?_⟩
  · intro x h1 h2
    unfold Table.normalize_step
    split_ifs with ha hb
    · exact ⟨by linarith, by linarith, 1, by push_cast; ring⟩
    · exact ⟨by linarith, by linarith, -1, by push_cast; ring⟩
    · exact ⟨by linarith, by linarith, 0, by push_cast; ring⟩
  · intro a h1 h2
    unfold Angle.wrapAngle
    split_ifs with ha hb
    · exact ⟨by linarith, by linarith, 1, by push_cast; ring⟩
    · exact ⟨by linarith, by linarith, -1, by push_cast; ring⟩
    · exact ⟨by linarith, by linarith, 0, by push_cast; ring⟩
  · intro d h1 h2
    unfold Sine.wrapDegrees
    split_ifs with ha hb
    · exact ⟨by linarith, by linarith, 1, by push_cast; ring⟩
    · exact ⟨by linarith, by linarith, -1, by push_cast; ring⟩
    · exact ⟨by linarith, by linarith, 0, by push_cast; ring⟩

/-- C1 witness: the amended normalization theorem applied at the concrete
inputs 30 (table, one wrap down), 1 radian (no wrap) and 400 degrees (one
wrap down). -/
theorem normalize_wraps_witness :
    (0 ≤ Table.normalize_step 30 ∧
      Table.normalize_step 30 < (Table.NUM_STEPS : ℚ) ∧
      ∃ k : ℤ, (30 : ℚ) - Table.normalize_step 30 = k * (Table.NUM_STEPS : ℚ)) ∧
    (0 ≤ Angle.wrapAngle 1 ∧ Angle.wrapAngle 1 < 2 * Real.pi ∧
      ∃ k : ℤ, (1 : ℝ) - Angle.wrapAngle 1 = k * (2 * Real.pi)) ∧
    (0 ≤ Sine.wrapDegrees 400 ∧ Sine.wrapDegrees 400 < 360 ∧
      ∃ k : ℤ, (400 : ℝ) - Sine.wrapDegrees 400 = k * 360) := by
  have h := normalize_wraps_within_one_period
  refine ⟨h.1 30 ?_ ?_, h.2.1 1 ?_ ?_, h.2.2 400 (by norm_num) (by norm_num)⟩
  · norm_num [Table.NUM_STEPS, Table.STEPS]
  · norm_num [Table.NUM_STEPS, Table.STEPS]
  · have := Real.pi_pos
    linarith
  · have := Real.pi_gt_three
    linarith

/-- C2: starting from any position in [0, P) and stepping in either
direction with the configured step increment (0.05 rad, 0.5 deg, 0.1 table
index), the stored position is again in [0, P) after step(). -/
theorem position_invariant_preserved :
    (∀ (a : ℝ) (dir : ℤ), 0 ≤ a → a < 2 * Real.pi →
      0 ≤ Angle.step a dir ∧ Angle.step a dir < 2 * Real.pi) ∧
    (∀ (d : ℝ) (dir : ℤ), 0 ≤ d → d < 360 →
      0 ≤ Sine.step d dir ∧ Sine.step d dir < 360) ∧
    (∀ (p : ℚ) (dir : ℤ), 0 ≤ p → p < (Table.NUM_STEPS : ℚ) →
      0 ≤ Table.stepPos p dir ∧ Table.stepPos p dir < (Table.NUM_STEPS : ℚ)) := by
  refine ⟨?_, ?_, ?_⟩
  · intro a dir h1 h2
    have hpi := Real.pi_gt_three
    unfold Angle.step Angle.wrapAngle Angle.step_increment
    split_ifs <;> constructor <;> linarith
  · intro d dir h1 h2
    unfold Sine.step Sine.wrapDegrees Sine.step_increment
    split_ifs <;> constructor <;> linarith
  · intro p dir h1 h2
    have hN : (Table.NUM_STEPS : ℚ) = 24 := by
      norm_num [Table.NUM_STEPS, Table.STEPS]
    rw [hN] at h2 ⊢
    unfold Table.stepPos Table.normalize_step Table.step_increment
    rw [hN]
    split_ifs <;> constructor <;> linarith

/-- C2 witness: the invariant-preservation theorem applied at position 0
stepping forward, and near the top of the range stepping forward, in each
representation. -/
theorem position_invariant_witness :
    (0 ≤ Angle.step 0 1 ∧ Angle.step 0 1 < 2 * Real.pi) ∧
    (0 ≤ Sine.step 359.9 1 ∧ Sine.step 359.9 1 < 360) ∧
    (0 ≤ Table.stepPos 23.95 (-1) ∧ Table.stepPos 23.95 (-1) < (Table.NUM_STEPS : ℚ)) := by
  have h := position_invariant_preserved
  refine ⟨h.1 0 1 le_rfl ?_, h.2.1 359.9 1 (by norm_num) (by norm_num),
          h.2.2 23.95 (-1) (by norm_num) ?_⟩
  · have := Real.pi_pos
    linarith
  · norm_num [Table.NUM_STEPS, Table.STEPS]

/-- C3 counterexample: apply_phase truncates with Python int() rather than
rounding. At value 1/2 the code writes a high-side duty of
int(0.5 * 65535) = 32767, while round(0.5 * 65535) = 32768. -/
theorem apply_phase_truncates_counterexample :
    (Angle.apply_phase (1/2)).1 = 32767 ∧
    round ((1/2 : ℝ) * (Angle.PWM_MAX : ℝ)) = 32768 := by
  constructor
  · norm_num [Angle.apply_phase, pyIntR, Angle.PWM_MAX]
  · norm_num [Angle.PWM_MAX, round_eq]

/-- C3 (amended): in apply_phase, for every value in [-1, 1]: if value ≥ 0
the low-side duty is set to 0 and the high-side duty to the truncation
(floor, for this sign) of value × PWM_MAX; if value < 0 the high-side duty
is set to 0 and the low-side duty to the truncation of −value × PWM_MAX.
The table-strategy variant takes its value on the [-100, 100] scale and
divides it by 100 before the same computation. -/
theorem apply_phase_duty_values :
    (∀ value : ℝ, -1 ≤ value → value ≤ 1 →
      (value ≥ 0 →
        Angle.apply_phase value = (⌊value * (Angle.PWM_MAX : ℝ)⌋, 0)) ∧
      (value < 0 →
        Angle.apply_phase value = (0, ⌊-value * (Angle.PWM_MAX : ℝ)⌋))) ∧
    (∀ value : ℚ, -100 ≤ value → value ≤ 100 →
      (value ≥ 0 →
        Table.apply_phase value = (⌊value / 100 * (Table.PWM_MAX : ℚ)⌋, 0)) ∧
      (value < 0 →
        Table.apply_phase value = (0, ⌊-1 * (value / 100) * (Table.PWM_MAX : ℚ)⌋))) := by
  constructor
  · intro value h1 h2
    constructor
    · intro hv
      have hx : (0 : ℝ) ≤ value * (Angle.PWM_MAX : ℝ) := by
        apply mul_nonneg hv
        norm_num [Angle.PWM_MAX]
      rw [Angle.apply_phase, if_pos hv, pyIntR, if_pos hx]
    · intro hv
      have hx : (0 : ℝ) ≤ -value * (Angle.PWM_MAX : ℝ) := by
        apply mul_nonneg (by linarith)
        norm_num [Angle.PWM_MAX]
      rw [Angle.apply_phase, if_neg (by linarith), pyIntR, if_pos hx]
  · intro value h1 h2
    constructor
    · intro hv
      have hx : (0 : ℚ) ≤ value / 100 * (Table.PWM_MAX : ℚ) := by
        apply mul_nonneg (by linarith)
        norm_num [Table.PWM_MAX]
      rw [Table.apply_phase, if_pos hv, pyInt, if_pos hx]
    · intro hv
      have hx : (0 : ℚ) ≤ -1 * (value / 100) * (Table.PWM_MAX : ℚ) := by
        apply mul_nonneg (by nlinarith)
        norm_num [Table.PWM_MAX]
      rw [Table.apply_phase, if_neg (by linarith), pyInt, if_pos hx]

/-- C3 witness: the duty-value theorem applied at value 1/4 (radian-variant
scale) and value -50 (table scale), with the floors evaluated. -/
theorem apply_phase_duty_witness :
    Angle.apply_phase (1/4) = (16383, 0) ∧
    Table.apply_phase (-50) = (0, 32767) := by
  have ha := (apply_phase_duty_values.1 (1/4) (by norm_num) (by norm_num)).1
    (by norm_num)
  have hb := (apply_phase_duty_values.2 (-50) (by norm_num) (by norm_num)).2
    (by norm_num)
  rw [ha, hb]
  norm_num [Angle.PWM_MAX, Table.PWM_MAX]

/-- C5 counterexample: interpolate_value clamps the progress argument to
[0, 1], so the unrestricted linear formula of the claim fails outside that
range: at from 0, to 1, progress 2 the code returns 1, not
0 + 2 * (1 - 0) = 2. -/
theorem interpolate_value_clamp_counterexample :
    Table.interpolate_value 0 1 2 = 1 ∧
    (0 : ℚ) + 2 * (1 - 0) = 2 ∧
    Table.interpolate_value 0 1 2 ≠ (0 : ℚ) + 2 * (1 - 0) := by
  refine ⟨?_, by norm_num, ?_⟩ <;> norm_num [Table.interpolate_value]

/-- C5 (amended): for every from_value, to_value and progress in [0, 1] the
linear interpolation returns from + progress × (to − from); progress 0
returns from exactly, progress 1 returns to exactly, and equal endpoints
return that value for any progress; consequently the table-strategy phase
computation at an exact integral position returns the table row at that
index unchanged for either direction. -/
theorem interpolate_value_linear :
    (∀ f t p : ℚ, 0 ≤ p → p ≤ 1 →
      Table.interpolate_value f t p = f + p * (t - f)) ∧
    (∀ f t : ℚ,
      Table.interpolate_value f t 0 = f ∧ Table.interpolate_value f t 1 = t) ∧
    (∀ f p : ℚ, Table.interpolate_value f f p = f) ∧
    (∀ k : ℤ, 0 ≤ k → k < (Table.NUM_STEPS : ℤ) → ∀ dir : ℤ,
      Table.tablePhases (k : ℚ) dir = Table.tableRow k) := by
  have hlin : ∀ f t p : ℚ, 0 ≤ p → p ≤ 1 →
      Table.interpolate_value f t p = f + p * (t - f) := by
    intro f t p hp0 hp1
    unfold Table.interpolate_value
    split_ifs with h1 h2 h3
    · rw [h1]; ring
    · have : p = 0 := le_antisymm h2 hp0
      rw [this]; ring
    · have : p = 1 := le_antisymm hp1 h3
      rw [this]; ring
    · ring
  have hself : ∀ f p : ℚ, Table.interpolate_value f f p = f := by
    intro f p
    simp [Table.interpolate_value]
  refine ⟨hlin, ?_, hself, ?_⟩
  · intro f t
    constructor
    · rw [hlin f t 0 le_rfl (by norm_num)]; ring
    · rw [hlin f t 1 (by norm_num) le_rfl]; ring
  · intro k hk0 hk24 dir
    have hfloor : ⌊(k : ℚ)⌋ = k := Int.floor_intCast k
    have hceil : ⌈(k : ℚ)⌉ = k := Int.ceil_intCast k
    have hni : Table.normalize_idx k = k := by
      unfold Table.normalize_idx
      split_ifs <;> omega
    unfold Table.tablePhases
    simp only [hfloor, hceil, hni]
    split_ifs <;> simp [hni, hself]

/-- C5 witness: the amended interpolation theorem applied at
from 25, to 50, progress 1/10, and the integral-position consequence at
table position 1 moving forward (spec scenario 2). -/
theorem interpolate_value_linear_witness :
    Table.interpolate_value 25 50 (1/10) = 25 + (1/10) * (50 - 25) ∧
    Table.tablePhases ((1 : ℤ) : ℚ) 1 = Table.tableRow 1 := by
  refine ⟨interpolate_value_linear.1 25 50 (1/10) (by norm_num) (by norm_num),
          interpolate_value_linear.2.2.2 1 (by norm_num) ?_ 1⟩
  norm_num [Table.NUM_STEPS, Table.STEPS]

/-- C6: the bracketing indices and interpolation fraction of the table
strategy are direction-aware. Moving forward the computation interpolates
from the row at floor(position) to the row at ceil(position) with progress
1 − (ceil(position) − position); moving backward it interpolates from the
row at ceil(position) to the row at floor(position) with progress
1 − (position − floor(position)); forward at position 0.1 this yields
progress 0.1 and phase values (27.5, 0, -72.5) (spec scenario 3). -/
theorem bracketing_direction_aware :
    (∀ p : ℚ,
      Table.tablePhases p Table.DIRECTION_FORWARDS =
        (Table.interpolate_value
            (Table.tableRow (Table.normalize_idx ⌊p⌋)).1
            (Table.tableRow (Table.normalize_idx ⌈p⌉)).1
            (1 - ((⌈p⌉ : ℚ) - p)),
         Table.interpolate_value
            (Table.tableRow (Table.normalize_idx ⌊p⌋)).2.1
            (Table.tableRow (Table.normalize_idx ⌈p⌉)).2.1
            (1 - ((⌈p⌉ : ℚ) - p)),
         Table.interpolate_value
            (Table.tableRow (Table.normalize_idx ⌊p⌋)).2.2
            (Table.tableRow (Table.normalize_idx ⌈p⌉)).2.2
            (1 - ((⌈p⌉ : ℚ) - p)))) ∧
    (∀ p : ℚ,
      Table.tablePhases p (-1) =
        (Table.interpolate_value
            (Table.tableRow (Table.normalize_idx ⌈p⌉)).1
            (Table.tableRow (Table.normalize_idx ⌊p⌋)).1
            (1 - (p - (⌊p⌋ : ℚ))),
         Table.interpolate_value
            (Table.tableRow (Table.normalize_idx ⌈p⌉)).2.1
            (Table.tableRow (Table.normalize_idx ⌊p⌋)).2.1
            (1 - (p - (⌊p⌋ : ℚ))),
         Table.interpolate_value
            (Table.tableRow (Table.normalize_idx ⌈p⌉)).2.2
            (Table.tableRow (Table.normalize_idx ⌊p⌋)).2.2
            (1 - (p - (⌊p⌋ : ℚ))))) ∧
    Table.tablePhases 0.1 Table.DIRECTION_FORWARDS = (27.5, 0, -72.5) := by
  refine ⟨fun p => rfl, fun p => rfl, ?_⟩
  have hf : ⌊(0.1 : ℚ)⌋ = 0 := by norm_num
  have hc : ⌈(0.1 : ℚ)⌉ = 1 := by rw [Int.ceil_eq_iff]; norm_num
  simp only [Table.tablePhases, Table.DIRECTION_FORWARDS, hf, hc]
  norm_num [Table.normalize_idx, Table.tableRow, Table.STEPS,
    Table.NUM_STEPS, Table.interpolate_value]

/-- C7: the continuous-trigonometric strategy produces exactly the triple
cos(angle), cos(angle − 2π/3), cos(angle + 2π/3) (in the degree variant the
angle is the position converted to radians), each component lies in
[-1, 1], and at angle 0 the triple is (1, -1/2, -1/2). -/
theorem trig_phase_values :
    (∀ angle : ℝ,
      Angle.phaseValues angle =
        (Real.cos angle, Real.cos (angle - 2 * Real.pi / 3),
         Real.cos (angle + 2 * Real.pi / 3)) ∧
      (-1 ≤ (Angle.phaseValues angle).1 ∧ (Angle.phaseValues angle).1 ≤ 1) ∧
      (-1 ≤ (Angle.phaseValues angle).2.1 ∧ (Angle.phaseValues angle).2.1 ≤ 1) ∧
      (-1 ≤ (Angle.phaseValues angle).2.2 ∧ (Angle.phaseValues angle).2.2 ≤ 1)) ∧
    (∀ degrees : ℝ,
      Sine.phaseValues degrees =
        (Real.cos (degrees * (Real.pi / 180)),
         Real.cos (degrees * (Real.pi / 180) - 2 * Real.pi / 3),
         Real.cos (degrees * (Real.pi / 180) + 2 * Real.pi / 3))) ∧
    Angle.phaseValues 0 = (1, -(1/2), -(1/2)) := by
  refine ⟨?_, ?_, ?_⟩
  · intro angle
    refine ⟨rfl, ?_, ?_, ?_⟩ <;>
      exact ⟨Real.neg_one_le_cos _, Real.cos_le_one _⟩
  · intro degrees
    rfl
  · have h23 : Real.cos (2 * Real.pi / 3) = -(1/2) := by
      rw [show 2 * Real.pi / 3 = Real.pi - Real.pi / 3 by ring,
        Real.cos_pi_sub, Real.cos_pi_div_three]
    unfold Angle.phaseValues Angle.PHASE_ANGLE
    rw [Real.cos_zero, zero_sub, Real.cos_neg, zero_add, h23]

/-- C9: stop() clears the running flag and zeroes all six half-bridge duty
cycles; repeating stop() changes nothing, and calling the tick operation
update() in the stopped state is a no-op that re-asserts all outputs off,
so the duties stay 0. -/
theorem stop_idempotent_outputs_off :
    ∀ s : Angle.State,
      Angle.allOff (Angle.stop s) ∧
      (Angle.stop s).running = false ∧
      Angle.stop (Angle.stop s) = Angle.stop s ∧
      Angle.update (Angle.stop s) = Angle.stop s ∧
      Angle.allOff (Angle.update (Angle.stop s)) := by
  intro s
  obtain ⟨a, d, i, r, x1, x2, x3, x4, x5, x6⟩ := s
  refine ⟨?_, rfl, rfl, rfl, ?_⟩ <;>
    simp [Angle.allOff, Angle.stop, Angle.output_off, Angle.update]

/-- C10: for every table position p with 0 ≤ p < NUM_STEPS, the lookup
indices computed in step() — floor(p) and ceil(p), each passed through
normalize_step — lie in [0, NUM_STEPS − 1], so indexing STEPS stays in
bounds for either direction. -/
theorem table_indices_in_bounds :
    ∀ p : ℚ, 0 ≤ p → p < (Table.NUM_STEPS : ℚ) →
      0 ≤ Table.normalize_idx ⌊p⌋ ∧
      Table.normalize_idx ⌊p⌋ < (Table.NUM_STEPS : ℤ) ∧
      0 ≤ Table.normalize_idx ⌈p⌉ ∧
      Table.normalize_idx ⌈p⌉ < (Table.NUM_STEPS : ℤ) := by
  intro p h0 h1
  have hN : 0 < (Table.NUM_STEPS : ℤ) := by
    norm_num [Table.NUM_STEPS, Table.STEPS]
  have hfl : 0 ≤ ⌊p⌋ := Int.floor_nonneg.mpr h0
  have hfu : ⌊p⌋ < (Table.NUM_STEPS : ℤ) := by
    rw [Int.floor_lt]
    exact_mod_cast h1
  have hcl : 0 ≤ ⌈p⌉ := Int.ceil_nonneg h0
  have hcu : ⌈p⌉ ≤ (Table.NUM_STEPS : ℤ) := by
    rw [Int.ceil_le]
    exact_mod_cast le_of_lt h1
  unfold Table.normalize_idx
  split_ifs <;> omega

/-- C10 witness: the index-bound theorem applied at position 23.5, where
ceil(p) = 24 wraps to 0. -/
theorem table_indices_in_bounds_witness :
    0 ≤ Table.normalize_idx ⌊(23.5 : ℚ)⌋ ∧
    Table.normalize_idx ⌊(23.5 : ℚ)⌋ < (Table.NUM_STEPS : ℤ) ∧
    0 ≤ Table.normalize_idx ⌈(23.5 : ℚ)⌉ ∧
    Table.normalize_idx ⌈(23.5 : ℚ)⌉ < (Table.NUM_STEPS : ℤ) := by
  refine table_indices_in_bounds 23.5 (by norm_num) ?_
  norm_num [Table.NUM_STEPS, Table.STEPS]

namespace Angle

/-- A state visited while executing appended event lists is visited either
during the first list or during the second list started from the first
list's final state. -/
theorem mem_visited_append (s t : ℤ × ℤ) (l1 l2 : List PhaseEvent)
    (h : t ∈ visited s (l1 ++ l2)) :
    t ∈ visited s l1 ∨ t ∈ visited (execList s l1) l2 := by
  induction l1 generalizing s with
  | nil =>
    right
    simpa [execList] using h
  | cons e es ih =>
    rw [List.cons_append, visited] at h
    rcases List.mem_cons.mp h with h1 | h1
    · left
      rw [visited]
      exact List.mem_cons.mpr (Or.inl h1)
    · rcases ih (execEvent s e) h1 with h2 | h2
      · left
        rw [visited]
        exact List.mem_cons.mpr (Or.inr h2)
      · right
        simpa [execList] using h2

/-- Executing one apply_phase block from a state with at most one side
energized only passes through such states, and ends in one. -/
theorem ok_applyTrace (s : ℤ × ℤ) (hs : okPair s) (v : ℝ) :
    (∀ t ∈ visited s (applyTrace v), okPair t) ∧
    okPair (execList s (applyTrace v)) := by
  obtain ⟨hh, ll⟩ := s
  unfold applyTrace
  split_ifs with hv
  · constructor
    · intro t ht
      simp only [visited, execEvent, List.mem_cons, List.not_mem_nil,
        or_false] at ht
      rcases ht with rfl | rfl | rfl | rfl
      · exact hs
      · right; rfl
      · right; rfl
      · right; rfl
    · right; rfl
  · constructor
    · intro t ht
      simp only [visited, execEvent, List.mem_cons, List.not_mem_nil,
        or_false] at ht
      rcases ht with rfl | rfl | rfl | rfl
      · exact hs
      · left; rfl
      · left; rfl
      · left; rfl
    · left; rfl

/-- Along the trace of any sequence of apply_phase calls, every state has
at most one side of the phase energized. -/
theorem ok_trace (values : List ℝ) (s : ℤ × ℤ) (hs : okPair s) :
    ∀ t ∈ visited s (trace values), okPair t := by
  induction values generalizing s with
  | nil =>
    intro t ht
    simp only [trace, visited, List.mem_singleton] at ht
    exact ht ▸ hs
  | cons v vs ih =>
    intro t ht
    rw [trace] at ht
    rcases mem_visited_append s t _ _ ht with h1 | h1
    · exact (ok_applyTrace s hs v).1 t h1
    · exact ih (execList s (applyTrace v)) (ok_applyTrace s hs v).2 t h1

/-- In the trace of any sequence of apply_phase calls, an energizing write
(a nonzero duty) at index j is preceded by the write zeroing the opposite
side and, strictly between the two, a sleep of DEAD_TIME. -/
theorem energize_preceded (values : List ℝ) (j : ℕ) (d : ℤ) (hd : 0 < d) :
    ((trace values)[j]? = some (PhaseEvent.setHigh d) →
      ∃ i k, i < k ∧ k < j ∧
        (trace values)[i]? = some (PhaseEvent.setLow 0) ∧
        (trace values)[k]? = some (PhaseEvent.sleep DEAD_TIME)) ∧
    ((trace values)[j]? = some (PhaseEvent.setLow d) →
      ∃ i k, i < k ∧ k < j ∧
        (trace values)[i]? = some (PhaseEvent.setHigh 0) ∧
        (trace values)[k]? = some (PhaseEvent.sleep DEAD_TIME)) := by
  induction values generalizing j with
  | nil => constructor <;> intro h <;> simp [trace] at h
  | cons v vs ih =>
    rw [trace]
    have hlen : (applyTrace v).length = 3 := by
      unfold applyTrace
      split_ifs <;> rfl
    by_cases hj : j < 3
    · unfold applyTrace
      split_ifs with hv
      · simp only [List.cons_append]
        interval_cases j
        · constructor <;> intro h <;> simp at h
          omega
        · constructor <;> intro h <;> simp at h
        · constructor <;> intro h
          · exact ⟨0, 1, by omega, by omega, by simp, by simp⟩
          · simp at h
      · simp only [List.cons_append]
        interval_cases j
        · constructor <;> intro h <;> simp at h
          omega
        · constructor <;> intro h <;> simp at h
        · constructor <;> intro h
          · simp at h
          · exact ⟨0, 1, by omega, by omega, by simp, by simp⟩
    · push_neg at hj
      obtain ⟨j1, rfl⟩ : ∃ j1, j = j1 + 3 := ⟨j - 3, by omega⟩
      have hre : ∀ n, (applyTrace v ++ trace vs)[n + 3]? = (trace vs)[n]? := by
        intro n
        rw [List.getElem?_append_right (by simp [hlen])]
        simp [hlen]
      constructor
      · intro h
        rw [hre j1] at h
        obtain ⟨i, k, hik, hkj, hi, hk⟩ := (ih j1).1 h
        exact ⟨i + 3, k + 3, by omega, by omega,
          by rw [hre i]; exact hi, by rw [hre k]; exact hk⟩
      · intro h
        rw [hre j1] at h
        obtain ⟨i, k, hik, hkj, hi, hk⟩ := (ih j1).2 h
        exact ⟨i + 3, k + 3, by omega, by omega,
          by rw [hre i]; exact hi, by rw [hre k]; exact hk⟩

end Angle

/-- C8: over the event trace of any sequence of apply_phase calls on one
phase, starting from both sides off: (1) no visited state ever has both
sides of the phase commanded on; (2) every write energizing the high side
is preceded by a write zeroing the low side and, strictly between them, a
sleep of DEAD_TIME; (3) symmetrically for writes energizing the low
side. -/
theorem dead_time_ordering :
    ∀ values : List ℝ,
      (∀ s ∈ Angle.visited (0, 0) (Angle.trace values),
        ¬(0 < s.1 ∧ 0 < s.2)) ∧
      (∀ (j : ℕ) (d : ℤ),
        (Angle.trace values)[j]? = some (Angle.PhaseEvent.setHigh d) →
        0 < d → ∃ i k, i < k ∧ k < j ∧
          (Angle.trace values)[i]? = some (Angle.PhaseEvent.setLow 0) ∧
          (Angle.trace values)[k]? =
            some (Angle.PhaseEvent.sleep Angle.DEAD_TIME)) ∧
      (∀ (j : ℕ) (d : ℤ),
        (Angle.trace values)[j]? = some (Angle.PhaseEvent.setLow d) →
        0 < d → ∃ i k, i < k ∧ k < j ∧
          (Angle.trace values)[i]? = some (Angle.PhaseEvent.setHigh 0) ∧
          (Angle.trace values)[k]? =
            some (Angle.PhaseEvent.sleep Angle.DEAD_TIME)) := by
  intro values
  refine ⟨?_, ?_, ?_⟩
  · intro s hs
    rintro ⟨h1, h2⟩
    rcases Angle.ok_trace values (0, 0) (Or.inl rfl) s hs with h | h <;> omega
  · exact fun j d h hd => (Angle.energize_preceded values j d hd).1 h
  · exact fun j d h hd => (Angle.energize_preceded values j d hd).2 h

/-- C8 witness: the dead-time theorem applied to the concrete call sequence
apply_phase(1) then apply_phase(-1): the state reached after the first call
(high side at 65535) never has both sides on, and the energizing write at
trace index 2 is preceded by the low-side zeroing write and the DEAD_TIME
sleep. -/
theorem dead_time_ordering_witness :
    ¬(0 < ((65535 : ℤ), (0 : ℤ)).1 ∧ 0 < ((65535 : ℤ), (0 : ℤ)).2) ∧
    (∃ i k, i < k ∧ k < 2 ∧
      (Angle.trace [1, -1])[i]? = some (Angle.PhaseEvent.setLow 0) ∧
      (Angle.trace [1, -1])[k]? =
        some (Angle.PhaseEvent.sleep Angle.DEAD_TIME)) := by
  have hp1 : pyIntR ((1 : ℝ) * (Angle.PWM_MAX : ℝ)) = 65535 := by
    unfold pyIntR
    rw [if_pos (by norm_num [Angle.PWM_MAX])]
    norm_num [Angle.PWM_MAX]
  have hp2 : pyIntR (-(-1 : ℝ) * (Angle.PWM_MAX : ℝ)) = 65535 := by
    unfold pyIntR
    rw [if_pos (by norm_num [Angle.PWM_MAX])]
    norm_num [Angle.PWM_MAX]
  have h1 : Angle.applyTrace 1 =
      [Angle.PhaseEvent.setLow 0, Angle.PhaseEvent.sleep Angle.DEAD_TIME,
       Angle.PhaseEvent.setHigh 65535] := by
    rw [Angle.applyTrace, if_pos (by norm_num : (1 : ℝ) ≥ 0), hp1]
  have h2 : Angle.applyTrace (-1) =
      [Angle.PhaseEvent.setHigh 0, Angle.PhaseEvent.sleep Angle.DEAD_TIME,
       Angle.PhaseEvent.setLow 65535] := by
    rw [Angle.applyTrace, if_neg (by norm_num : ¬(-1 : ℝ) ≥ 0), hp2]
  have ht : Angle.trace [1, -1] =
      [Angle.PhaseEvent.setLow 0, Angle.PhaseEvent.sleep Angle.DEAD_TIME,
       Angle.PhaseEvent.setHigh 65535, Angle.PhaseEvent.setHigh 0,
       Angle.PhaseEvent.sleep Angle.DEAD_TIME,
       Angle.PhaseEvent.setLow 65535] := by
    rw [Angle.trace, Angle.trace, Angle.trace, h1, h2]
    rfl
  constructor
  · refine (dead_time_ordering [1, -1]).1 (65535, 0) ?_
    rw [ht]
    simp [Angle.visited, Angle.execEvent]
  · refine (dead_time_ordering [1, -1]).2.1 2 65535 ?_ (by norm_num)
    rw [ht]
    rfl
